import Mathlib

/-!
Verification of the LSB-steganography codec in
`src/services/steganographyService.ts`.

The codec part of the source (lines 1-52 and the pixel-walk cores of
`encodeTextInImage` / `decodeTextFromImage`) is embedded shallowly:

* a pixel buffer is a `List Nat` of bytes (RGBA order, alpha at index
  `i % 4 = 3`);
* a text is a `List Nat` of Unicode scalar values (the code points of a
  JavaScript string; `TextEncoder` / `TextDecoder (fatal)` are modelled by
  `utf8Encode` / `utf8Decode`, the WHATWG UTF-8 coders they implement);
* the JavaScript binary strings of '0'/'1' characters are `List Nat`
  bit lists;
* each distinct `reject(new Error(...))` site of the codec becomes a
  `StegoError` constructor;
* `encodeTextInImage` mutates `imageData.data` in place, so its model
  `encodeTextInImageSt` returns the final buffer state next to the
  error status (on the pre-walk failures the buffer is returned as
  received, exactly as in the source where the walk has not run).
-/

namespace Stego

/-- Bits of `n`, most significant first, padded to width `w`: the model of
`num.toString(2).padStart(w, '0')` for `num < 2 ^ w`. -/
def natToBits : Nat → Nat → List Nat
  | 0, _ => []
  | w + 1, n => natToBits w (n / 2) ++ [n % 2]

/-- Most-significant-first binary value of a bit list: the model of
`parseInt(bitString, 2)`. -/
def bitsToNat (l : List Nat) : Nat :=
  l.foldl (fun a b => 2 * a + b) 0

/-- Concatenation of the 8-bit MSB-first encodings of a byte list: the loop
`utf8Bytes.forEach(byte => binaryString += byte.toString(2).padStart(8,'0'))`
of `textToUTF8Binary` (source lines 5-8). -/
def bytesToBits : List Nat → List Nat
  | [] => []
  | b :: rest => natToBits 8 b ++ bytesToBits rest

/-- Grouping of a bit list into bytes, 8 bits at a time, as in the loop of
`binaryToUTF8Text` (source lines 30-42).  A trailing group of fewer than
8 bits is discarded (the source only logs `console.warn` for it and pushes
no byte), which is the silent-truncation behaviour claim C2 is about. -/
def bitsToBytes : List Nat → List Nat
  | b0 :: b1 :: b2 :: b3 :: b4 :: b5 :: b6 :: b7 :: rest =>
      bitsToNat [b0, b1, b2, b3, b4, b5, b6, b7] :: bitsToBytes rest
  | _ => []

/-- A Unicode scalar value: any code point that is not a surrogate.  These
are exactly the code points a well-formed JavaScript string contains. -/
def ValidScalar (c : Nat) : Prop :=
  c < 0xD800 ∨ (0xDFFF < c ∧ c < 0x110000)

instance (c : Nat) : Decidable (ValidScalar c) := by
  unfold ValidScalar; infer_instance

/-- UTF-8 encoding of one scalar value (the `TextEncoder` byte layout,
written with `/` and `%` instead of shifts and masks). -/
def utf8EncodeChar (c : Nat) : List Nat :=
  if c < 0x80 then [c]
  else if c < 0x800 then [0xC0 + c / 64, 0x80 + c % 64]
  else if c < 0x10000 then
    [0xE0 + c / 4096, 0x80 + c / 64 % 64, 0x80 + c % 64]
  else
    [0xF0 + c / 262144, 0x80 + c / 4096 % 64, 0x80 + c / 64 % 64, 0x80 + c % 64]

/-- UTF-8 encoding of a scalar-value sequence: the model of
`new TextEncoder().encode(text)`. -/
def utf8Encode : List Nat → List Nat
  | [] => []
  | c :: cs => utf8EncodeChar c ++ utf8Encode cs

/-- Strict UTF-8 decoding: the model of
`new TextDecoder('utf-8', {fatal: true}).decode`, which rejects every
ill-formed sequence (overlong forms, surrogates, values above U+10FFFF,
truncated sequences) instead of emitting replacement characters.  The
byte-range table is Unicode's table of well-formed UTF-8 sequences. -/
def utf8DecodeStep : List Nat → Option (Nat × List Nat)
  | [] => none
  | b0 :: rest =>
    if b0 < 0x80 then
      some (b0, rest)
    else if 0xC2 ≤ b0 ∧ b0 < 0xE0 then
      match rest with
      | b1 :: r =>
        if 0x80 ≤ b1 ∧ b1 < 0xC0 then
          some ((b0 - 0xC0) * 64 + (b1 - 0x80), r)
        else none
      | [] => none
    else if 0xE0 ≤ b0 ∧ b0 < 0xF0 then
      match rest with
      | b1 :: b2 :: r =>
        if ((if b0 = 0xE0 then 0xA0 else 0x80) ≤ b1 ∧
              b1 ≤ (if b0 = 0xED then 0x9F else 0xBF)) ∧
            0x80 ≤ b2 ∧ b2 < 0xC0 then
          some ((b0 - 0xE0) * 4096 + (b1 - 0x80) * 64 + (b2 - 0x80), r)
        else none
      | _ => none
    else if 0xF0 ≤ b0 ∧ b0 ≤ 0xF4 then
      match rest with
      | b1 :: b2 :: b3 :: r =>
        if ((if b0 = 0xF0 then 0x90 else 0x80) ≤ b1 ∧
              b1 ≤ (if b0 = 0xF4 then 0x8F else 0xBF)) ∧
            (0x80 ≤ b2 ∧ b2 < 0xC0) ∧ 0x80 ≤ b3 ∧ b3 < 0xC0 then
          some ((b0 - 0xF0) * 262144 + (b1 - 0x80) * 4096 +
            (b2 - 0x80) * 64 + (b3 - 0x80), r)
        else none
      | _ => none
    else none

/-- Iteration of `utf8DecodeStep` with explicit fuel; one step consumes at
least one byte, so fuel equal to the byte count (as supplied by
`utf8Decode`) always suffices. -/
def utf8DecodeFuel : Nat → List Nat → Option (List Nat)
  | _, [] => some []
  | 0, _ :: _ => none
  | fuel + 1, b :: rest =>
    match utf8DecodeStep (b :: rest) with
    | none => none
    | some p => (utf8DecodeFuel fuel p.2).map (fun cs => p.1 :: cs)

def utf8Decode (l : List Nat) : Option (List Nat) :=
  utf8DecodeFuel l.length l

/-- Halving recursion counting the binary digits of `n`; `fuel ≥ n`
always suffices since halving a positive number at least decrements it. -/
def binaryDigitsAux : Nat → Nat → Nat
  | _, 0 => 0
  | 0, _ + 1 => 0
  | fuel + 1, n + 1 => binaryDigitsAux fuel ((n + 1) / 2) + 1

/-- Number of binary digits of `n`: the length of `n.toString(2)`. -/
def binaryDigits (n : Nat) : Nat :=
  if n = 0 then 1 else binaryDigitsAux n n

/-- Model of `textToUTF8Binary` (source lines 2-10). -/
def textToUTF8Binary (text : List Nat) : List Nat :=
  bytesToBits (utf8Encode text)

/-- Model of `numberToBinary` (source lines 13-19): `none` models the
`throw` when `num.toString(2).length > bits`. -/
def numberToBinary (num bits : Nat) : Option (List Nat) :=
  if bits < binaryDigits num then none else some (natToBits bits num)

/-- Model of `binaryToUTF8Text` (source lines 22-52): a trailing partial
byte is dropped by `bitsToBytes` (the source merely warns), and `none`
models the `throw` on invalid UTF-8 (`fatal: true`). -/
def binaryToUTF8Text (binaryString : List Nat) : Option (List Nat) :=
  utf8Decode (bitsToBytes binaryString)

/-- One value per distinct codec `reject(new Error(...))` site of
`encodeTextInImage` / `decodeTextFromImage` / the helpers. -/
inductive StegoError where
  /-- "Number ... is too large to fit in ... bits" (`numberToBinary`). -/
  | overflow : StegoError
  /-- "Text is too long to embed in this image ..." (encode, line 100). -/
  | capacityExceeded (required available : Nat) : StegoError
  /-- "Encoding error: Ran out of image data space unexpectedly ..."
  (encode, line 113). -/
  | internalInconsistency : StegoError
  /-- "Image is too small to contain any message ..." (decode, line 189). -/
  | bufferTooSmall : StegoError
  /-- "Decoding error: Ran out of image data while reading message length ..."
  (decode, line 199). -/
  | outOfDataLength : StegoError
  /-- "Declared message length ... exceeds available space ..."
  (decode, line 223). -/
  | declaredLengthExceedsCapacity (declared available : Nat) : StegoError
  /-- "Decoding error: Ran out of image data while reading message ..."
  (decode, line 236). -/
  | outOfDataMessage : StegoError
  /-- "Failed to decode message: Invalid UTF-8 sequence detected ..."
  (`binaryToUTF8Text`, rethrown by decode line 250). -/
  | invalidEncoding : StegoError
  deriving DecidableEq, Repr

/-- The embedding loop of `encodeTextInImage` (source lines 108-122):
walk the buffer from position `i`, skip bytes at `dataIndex % 4 = 3`,
overwrite the least-significant bit of every other byte with the next
payload bit.  Returns the error status and the final buffer state; on
the ran-out-of-data reject the bytes already written have been written
(the source mutates in place as it goes). -/
def embedWalk : List Nat → Nat → List Nat → Option StegoError × List Nat
  | buf, _, [] => (none, buf)
  | [], _, _ :: _ => (some .internalInconsistency, [])
  | b :: rest, i, bit :: bits =>
    if i % 4 = 3 then
      match embedWalk rest (i + 1) (bit :: bits) with
      | (e, r) => (e, b :: r)
    else
      match embedWalk rest (i + 1) bits with
      | (e, r) => (e, ((b &&& 0xFE) ||| bit) :: r)

/-- The codec core of `encodeTextInImage` (source lines 94-122), from the
point where `imageData.data` is in hand.  The first component is the
rejection (if any), the second the state of the pixel buffer afterwards. -/
def encodeTextInImageSt (data text : List Nat) : Option StegoError × List Nat :=
  match numberToBinary (textToUTF8Binary text).length 32 with
  | none => (some .overflow, data)
  | some messageLengthBinary =>
    if 3 * data.length / 4 < (messageLengthBinary ++ textToUTF8Binary text).length then
      (some (.capacityExceeded (messageLengthBinary ++ textToUTF8Binary text).length
        (3 * data.length / 4)), data)
    else
      embedWalk data 0 (messageLengthBinary ++ textToUTF8Binary text)

/-- The reading loop of `decodeTextFromImage` (lines 197-207 and 234-244):
read `n` least-significant bits starting at position `i`, skipping bytes
at `dataIndex % 4 = 3`.  Returns the bits, the unconsumed suffix of the
buffer and the next `dataIndex`, or `none` when the buffer runs out. -/
def readWalk : List Nat → Nat → Nat → Option (List Nat × List Nat × Nat)
  | buf, i, 0 => some ([], buf, i)
  | [], _, _ + 1 => none
  | b :: rest, i, n + 1 =>
    if i % 4 = 3 then
      readWalk rest (i + 1) (n + 1)
    else
      (readWalk rest (i + 1) n).map
        (fun p => ((b &&& 1) :: p.1, p.2.1, p.2.2))

/-- The codec core of `decodeTextFromImage` (source lines 186-251), from
the point where `imageData.data` is in hand.  The `messageLength < 0`
check of line 216 cannot fire (the parsed value is a natural number) and
has no model. -/
def decodeTextFromImage (data : List Nat) : Except StegoError (List Nat) :=
  let totalAvailableBits := 3 * data.length / 4
  if totalAvailableBits < 32 then
    .error .bufferTooSmall
  else
    match readWalk data 0 32 with
    | none => .error .outOfDataLength
    | some (extractedLengthBinary, rest, dataIndex) =>
      let messageLength := bitsToNat extractedLengthBinary
      if messageLength = 0 then
        .ok []
      else
        let remainingBitsInImage := totalAvailableBits - 32
        if remainingBitsInImage < messageLength then
          .error (.declaredLengthExceedsCapacity messageLength remainingBitsInImage)
        else
          match readWalk rest dataIndex messageLength with
          | none => .error .outOfDataMessage
          | some (extractedMessageBinary, _, _) =>
            match binaryToUTF8Text extractedMessageBinary with
            | none => .error .invalidEncoding
            | some decodedText => .ok decodedText

/-- The stream of least-significant bits of the eligible (non-alpha)
bytes of a buffer walked from position `i`: everything both walks ever
read or write. -/
def lsbStream : List Nat → Nat → List Nat
  | [], _ => []
  | b :: rest, i =>
    if i % 4 = 3 then lsbStream rest (i + 1)
    else (b &&& 1) :: lsbStream rest (i + 1)

/-- Number of eligible (non-alpha) positions among `n` consecutive buffer
positions starting at position `i`. -/
def eligCount : Nat → Nat → Nat
  | _, 0 => 0
  | i, n + 1 => (if i % 4 = 3 then 0 else 1) + eligCount (i + 1) n


/-! ### Bit-level lemmas -/

theorem natToBits_length (w : Nat) : ∀ n, (natToBits w n).length = w := by
  induction w with
  | zero => intro n; rfl
  | succ w ih => intro n; simp [natToBits, ih]

theorem natToBits_lt_two (w : Nat) : ∀ n, ∀ x ∈ natToBits w n, x < 2 := by
  induction w with
  | zero => intro n x hx; simp [natToBits] at hx
  | succ w ih =>
    intro n x hx
    simp only [natToBits, List.mem_append, List.mem_singleton] at hx
    rcases hx with h | h
    · exact ih _ x h
    · omega

theorem foldl_natToBits (w : Nat) :
    ∀ n a, (natToBits w n).foldl (fun a b => 2 * a + b) a = a * 2 ^ w + n % 2 ^ w := by
  induction w with
  | zero => intro n a; simp [natToBits, Nat.mod_one]
  | succ w ih =>
    intro n a
    rw [natToBits, List.foldl_append, ih]
    simp only [List.foldl_cons, List.foldl_nil]
    have h1 : (2 : Nat) ^ (w + 1) = 2 * 2 ^ w := by ring
    have h2 : n % (2 * 2 ^ w) = n % 2 + 2 * (n / 2 % 2 ^ w) := Nat.mod_mul
    rw [h1, h2]; ring

theorem bitsToNat_natToBits (w n : Nat) : bitsToNat (natToBits w n) = n % 2 ^ w := by
  simpa using foldl_natToBits w n 0

theorem bitsToNat_replicate_zero (n : Nat) : bitsToNat (List.replicate n 0) = 0 := by
  unfold bitsToNat
  induction n with
  | zero => rfl
  | succ n ih => simpa [List.replicate_succ] using ih

theorem bytesToBits_length (l : List Nat) : (bytesToBits l).length = 8 * l.length := by
  induction l with
  | nil => rfl
  | cons b l ih => simp [bytesToBits, natToBits_length, ih]; ring

theorem bytesToBits_lt_two (l : List Nat) : ∀ x ∈ bytesToBits l, x < 2 := by
  induction l with
  | nil => intro x hx; simp [bytesToBits] at hx
  | cons b l ih =>
    intro x hx
    simp only [bytesToBits, List.mem_append] at hx
    rcases hx with h | h
    · exact natToBits_lt_two 8 b x h
    · exact ih x h

theorem bitsToBytes_group (l8 : List Nat) (h : l8.length = 8) (rest : List Nat) :
    bitsToBytes (l8 ++ rest) = bitsToNat l8 :: bitsToBytes rest := by
  rcases l8 with _ | ⟨b0, _ | ⟨b1, _ | ⟨b2, _ | ⟨b3, _ | ⟨b4, _ | ⟨b5, _ | ⟨b6, _ | ⟨b7, tl⟩⟩⟩⟩⟩⟩⟩⟩ <;>
    simp only [List.length_cons, List.length_nil] at h <;> try omega
  have htl : tl = [] := List.eq_nil_of_length_eq_zero (by omega)
  subst htl
  rfl

theorem bitsToBytes_bytesToBits (l : List Nat) (h : ∀ b ∈ l, b < 256) :
    bitsToBytes (bytesToBits l) = l := by
  induction l with
  | nil => rfl
  | cons b l ih =>
    rw [bytesToBits, bitsToBytes_group _ (natToBits_length 8 b), bitsToNat_natToBits]
    have hb : b < 256 := h b (by simp)
    have h256 : b % 2 ^ 8 = b := Nat.mod_eq_of_lt (lt_of_lt_of_le hb (by norm_num))
    rw [h256, ih (fun x hx => h x (by simp [hx]))]

/-! ### Least-significant-bit arithmetic -/

theorem write_mod_two (b x : Nat) (hx : x < 2) : ((b &&& 0xFE) ||| x) % 2 = x := by
  rw [← Nat.and_one_is_mod, Nat.and_comm _ 1, Nat.and_or_distrib_left, ← Nat.and_assoc]
  have h1 : 1 &&& b = b % 2 := by rw [Nat.and_comm]; exact Nat.and_one_is_mod b
  rw [h1]
  have h2 : b % 2 &&& 254 = 0 := by
    rcases Nat.mod_two_eq_zero_or_one b with h | h <;> rw [h] <;> decide
  rw [h2, Nat.zero_or, Nat.and_comm, Nat.and_one_is_mod]
  omega

set_option maxRecDepth 4000 in
theorem byte_write_eq : ∀ b < 256, ∀ x < 2, (b &&& 0xFE) ||| x = 2 * (b / 2) + x := by
  decide

set_option maxRecDepth 4000 in
theorem byte_self_write : ∀ b < 256, (b &&& 0xFE) ||| (b &&& 1) = b := by
  decide

/-! ### Eligible positions and the LSB stream -/

theorem eligCount_closed : ∀ n i, eligCount i n = (i + n - (i + n) / 4) - (i - i / 4) := by
  intro n
  induction n with
  | zero => intro i; simp [eligCount]
  | succ n ih =>
    intro i
    rw [eligCount, ih (i + 1)]
    rcases Nat.lt_or_ge (i % 4) 3 with h | h
    · rw [if_neg (by omega)]; omega
    · rw [if_pos (by omega)]; omega

theorem eligCount_zero (n : Nat) : eligCount 0 n = n - n / 4 := by
  simpa using eligCount_closed n 0

theorem capacity_le_elig (n : Nat) : 3 * n / 4 ≤ n - n / 4 := by omega

theorem lsbStream_length (buf : List Nat) :
    ∀ i, (lsbStream buf i).length = eligCount i buf.length := by
  induction buf with
  | nil => intro i; rfl
  | cons b rest ih =>
    intro i
    show (if i % 4 = 3 then lsbStream rest (i + 1) else (b &&& 1) :: lsbStream rest (i + 1)).length
        = (if i % 4 = 3 then 0 else 1) + eligCount (i + 1) rest.length
    by_cases h : i % 4 = 3
    · rw [if_pos h, if_pos h, ih]; omega
    · rw [if_neg h, if_neg h, List.length_cons, ih]; omega

/-! ### Reading walk lemmas -/

theorem readWalk_spec (buf : List Nat) :
    ∀ i n bits r j, readWalk buf i n = some (bits, r, j) →
      bits = (lsbStream buf i).take n ∧ lsbStream r j = (lsbStream buf i).drop n ∧
        bits.length = n := by
  induction buf with
  | nil =>
    intro i n bits r j h
    cases n with
    | zero =>
      simp only [readWalk, Option.some_inj, Prod.mk.injEq] at h
      obtain ⟨rfl, rfl, rfl⟩ := h
      simp [lsbStream]
    | succ n => simp [readWalk] at h
  | cons b rest ih =>
    intro i n bits r j h
    cases n with
    | zero =>
      simp only [readWalk, Option.some_inj, Prod.mk.injEq] at h
      obtain ⟨rfl, rfl, rfl⟩ := h
      simp
    | succ n =>
      rw [readWalk] at h
      by_cases hi : i % 4 = 3
      · rw [if_pos hi] at h
        have hs : lsbStream (b :: rest) i = lsbStream rest (i + 1) := by
          rw [lsbStream, if_pos hi]
        rw [hs]
        exact ih (i + 1) (n + 1) bits r j h
      · rw [if_neg hi] at h
        cases hr : readWalk rest (i + 1) n with
        | none => rw [hr] at h; simp at h
        | some p =>
          rw [hr] at h
          simp only [Option.map, Option.some_inj, Prod.mk.injEq] at h
          obtain ⟨h1, h2, h3⟩ := h
          obtain ⟨g1, g2, g3⟩ := ih (i + 1) n p.1 p.2.1 p.2.2 (by rw [hr])
          have hs : lsbStream (b :: rest) i = (b &&& 1) :: lsbStream rest (i + 1) := by
            rw [lsbStream, if_neg hi]
          rw [hs, ← h1, ← h2, ← h3, List.take_succ_cons, List.drop_succ_cons]
          exact ⟨by rw [g1], by rw [g2], by simp [g3]⟩

theorem readWalk_isSome (buf : List Nat) :
    ∀ i n, n ≤ (lsbStream buf i).length → (readWalk buf i n).isSome := by
  induction buf with
  | nil =>
    intro i n h
    simp only [lsbStream, List.length_nil, Nat.le_zero] at h
    subst h
    rfl
  | cons b rest ih =>
    intro i n h
    cases n with
    | zero => rfl
    | succ n =>
      rw [readWalk]
      by_cases hi : i % 4 = 3
      · rw [if_pos hi]
        refine ih (i + 1) (n + 1) ?_
        rwa [lsbStream, if_pos hi] at h
      · rw [if_neg hi]
        rw [lsbStream, if_neg hi, List.length_cons] at h
        have := ih (i + 1) n (by omega)
        cases hr : readWalk rest (i + 1) n with
        | none => rw [hr] at this; simp at this
        | some p => simp [hr]

/-! ### Embedding walk lemmas -/

theorem embedWalk_isNone (buf : List Nat) :
    ∀ i payload, payload.length ≤ (lsbStream buf i).length →
      (embedWalk buf i payload).1 = none := by
  induction buf with
  | nil =>
    intro i payload h
    simp only [lsbStream, List.length_nil, Nat.le_zero] at h
    have hp : payload = [] := List.eq_nil_of_length_eq_zero h
    subst hp
    rfl
  | cons b rest ih =>
    intro i payload h
    cases payload with
    | nil => rfl
    | cons bit bits =>
      rw [embedWalk]
      by_cases hi : i % 4 = 3
      · rw [if_pos hi]
        have h2 := ih (i + 1) (bit :: bits) (by rwa [lsbStream, if_pos hi] at h)
        rcases hp : embedWalk rest (i + 1) (bit :: bits) with ⟨e, r⟩
        rw [hp] at h2
        simpa using h2
      · rw [if_neg hi]
        rw [lsbStream, if_neg hi, List.length_cons] at h
        have h2 := ih (i + 1) bits (by simpa using Nat.le_of_succ_le_succ h)
        rcases hp : embedWalk rest (i + 1) bits with ⟨e, r⟩
        rw [hp] at h2
        simpa using h2

theorem embedWalk_length (buf : List Nat) :
    ∀ i payload buf2, embedWalk buf i payload = (none, buf2) →
      buf2.length = buf.length := by
  induction buf with
  | nil =>
    intro i payload buf2 h
    cases payload with
    | nil =>
      simp only [embedWalk, Prod.mk.injEq] at h
      rw [← h.2]
    | cons bit bits => simp [embedWalk] at h
  | cons b rest ih =>
    intro i payload buf2 h
    cases payload with
    | nil =>
      simp only [embedWalk, Prod.mk.injEq] at h
      rw [← h.2]
    | cons bit bits =>
      rw [embedWalk] at h
      by_cases hi : i % 4 = 3
      · rw [if_pos hi] at h
        rcases hp : embedWalk rest (i + 1) (bit :: bits) with ⟨e, r⟩
        rw [hp] at h
        simp only [Prod.mk.injEq] at h
        obtain ⟨he, hbuf⟩ := h
        subst he
        rw [← hbuf, List.length_cons, List.length_cons, ih (i + 1) (bit :: bits) r hp]
      · rw [if_neg hi] at h
        rcases hp : embedWalk rest (i + 1) bits with ⟨e, r⟩
        rw [hp] at h
        simp only [Prod.mk.injEq] at h
        obtain ⟨he, hbuf⟩ := h
        subst he
        rw [← hbuf, List.length_cons, List.length_cons, ih (i + 1) bits r hp]

theorem embedWalk_stream (buf : List Nat) :
    ∀ i payload buf2, (∀ x ∈ payload, x < 2) → embedWalk buf i payload = (none, buf2) →
      lsbStream buf2 i = payload ++ (lsbStream buf i).drop payload.length := by
  induction buf with
  | nil =>
    intro i payload buf2 hb h
    cases payload with
    | nil =>
      simp only [embedWalk, Prod.mk.injEq] at h
      rw [← h.2]
      simp [lsbStream]
    | cons bit bits => simp [embedWalk] at h
  | cons b rest ih =>
    intro i payload buf2 hb h
    cases payload with
    | nil =>
      simp only [embedWalk, Prod.mk.injEq] at h
      rw [← h.2]
      simp
    | cons bit bits =>
      rw [embedWalk] at h
      by_cases hi : i % 4 = 3
      · rw [if_pos hi] at h
        rcases hp : embedWalk rest (i + 1) (bit :: bits) with ⟨e, r⟩
        rw [hp] at h
        simp only [Prod.mk.injEq] at h
        obtain ⟨he, hbuf⟩ := h
        subst he
        rw [← hbuf]
        have hs1 : lsbStream (b :: r) i = lsbStream r (i + 1) := by
          rw [lsbStream, if_pos hi]
        have hs2 : lsbStream (b :: rest) i = lsbStream rest (i + 1) := by
          rw [lsbStream, if_pos hi]
        rw [hs1, hs2]
        exact ih (i + 1) (bit :: bits) r hb hp
      · rw [if_neg hi] at h
        rcases hp : embedWalk rest (i + 1) bits with ⟨e, r⟩
        rw [hp] at h
        simp only [Prod.mk.injEq] at h
        obtain ⟨he, hbuf⟩ := h
        subst he
        rw [← hbuf]
        have hbit : bit < 2 := hb bit (by simp)
        have hw : (((b &&& 0xFE) ||| bit) &&& 1) = bit := by
          rw [Nat.and_one_is_mod]
          exact write_mod_two b bit hbit
        have hs1 : lsbStream (((b &&& 0xFE) ||| bit) :: r) i
            = bit :: lsbStream r (i + 1) := by
          rw [lsbStream, if_neg hi, hw]
        have hs2 : lsbStream (b :: rest) i = (b &&& 1) :: lsbStream rest (i + 1) := by
          rw [lsbStream, if_neg hi]
        rw [hs1, hs2, List.length_cons, List.drop_succ_cons, List.cons_append]
        rw [ih (i + 1) bits r (fun x hx => hb x (by simp [hx])) hp]

theorem embedWalk_payload_le (buf : List Nat) :
    ∀ i payload buf2, embedWalk buf i payload = (none, buf2) →
      payload.length ≤ (lsbStream buf i).length := by
  induction buf with
  | nil =>
    intro i payload buf2 h
    cases payload with
    | nil => simp
    | cons bit bits => simp [embedWalk] at h
  | cons b rest ih =>
    intro i payload buf2 h
    cases payload with
    | nil => simp
    | cons bit bits =>
      rw [embedWalk] at h
      by_cases hi : i % 4 = 3
      · rw [if_pos hi] at h
        rcases hp : embedWalk rest (i + 1) (bit :: bits) with ⟨e, r⟩
        rw [hp] at h
        simp only [Prod.mk.injEq] at h
        obtain ⟨he, hbuf⟩ := h
        subst he
        rw [lsbStream, if_pos hi]
        exact ih (i + 1) (bit :: bits) r hp
      · rw [if_neg hi] at h
        rcases hp : embedWalk rest (i + 1) bits with ⟨e, r⟩
        rw [hp] at h
        simp only [Prod.mk.injEq] at h
        obtain ⟨he, hbuf⟩ := h
        subst he
        rw [lsbStream, if_neg hi, List.length_cons, List.length_cons]
        exact Nat.succ_le_succ (ih (i + 1) bits r hp)

theorem embedWalk_getD (buf : List Nat) :
    ∀ i payload buf2, embedWalk buf i payload = (none, buf2) →
      ∀ j, j < buf.length →
        buf2.getD j 0 =
          if (i + j) % 4 ≠ 3 ∧ eligCount i j < payload.length then
            ((buf.getD j 0) &&& 0xFE) ||| payload.getD (eligCount i j) 0
          else buf.getD j 0 := by
  induction buf with
  | nil => intro i payload buf2 h j hj; simp at hj
  | cons b rest ih =>
    intro i payload buf2 h j hj
    cases payload with
    | nil =>
      simp only [embedWalk, Prod.mk.injEq] at h
      rw [← h.2, List.length_nil, if_neg (by omega)]
    | cons bit bits =>
      rw [embedWalk] at h
      by_cases hi : i % 4 = 3
      · rw [if_pos hi] at h
        rcases hp : embedWalk rest (i + 1) (bit :: bits) with ⟨e, r⟩
        rw [hp] at h
        simp only [Prod.mk.injEq] at h
        obtain ⟨he, hbuf⟩ := h
        subst he
        rw [← hbuf]
        cases j with
        | zero =>
          rw [List.getD_cons_zero, List.getD_cons_zero, if_neg (by omega)]
        | succ j =>
          rw [List.getD_cons_succ, List.getD_cons_succ]
          have harith : i + (j + 1) = (i + 1) + j := by omega
          have helig : eligCount i (j + 1) = eligCount (i + 1) j := by
            rw [eligCount, if_pos hi, Nat.zero_add]
          rw [harith, helig]
          exact ih (i + 1) (bit :: bits) r hp j (by simpa using hj)
      · rw [if_neg hi] at h
        rcases hp : embedWalk rest (i + 1) bits with ⟨e, r⟩
        rw [hp] at h
        simp only [Prod.mk.injEq] at h
        obtain ⟨he, hbuf⟩ := h
        subst he
        rw [← hbuf]
        cases j with
        | zero =>
          rw [List.getD_cons_zero, List.getD_cons_zero]
          have hc : (i + 0) % 4 ≠ 3 ∧ eligCount i 0 < (bit :: bits).length := by
            constructor
            · simpa using hi
            · simp [eligCount]
          rw [if_pos hc]
          have : eligCount i 0 = 0 := rfl
          rw [this, List.getD_cons_zero]
        | succ j =>
          rw [List.getD_cons_succ, List.getD_cons_succ]
          have harith : i + (j + 1) = (i + 1) + j := by omega
          have helig : eligCount i (j + 1) = 1 + eligCount (i + 1) j := by
            rw [eligCount, if_neg hi]
          have hgd : (bit :: bits).getD (eligCount i (j + 1)) 0
              = bits.getD (eligCount (i + 1) j) 0 := by
            rw [helig, Nat.add_comm, List.getD_cons_succ]
          have hlen : eligCount i (j + 1) < (bit :: bits).length
              ↔ eligCount (i + 1) j < bits.length := by
            rw [helig, List.length_cons]
            omega
          by_cases hc : ((i + 1) + j) % 4 ≠ 3 ∧ eligCount (i + 1) j < bits.length
          · rw [ih (i + 1) bits r hp j (by simpa using hj), if_pos hc, harith,
              if_pos ⟨hc.1, hlen.mpr hc.2⟩, hgd]
          · rw [ih (i + 1) bits r hp j (by simpa using hj), if_neg hc, harith, if_neg]
            intro hcon
            exact hc ⟨hcon.1, hlen.mp hcon.2⟩

/-! ### Decoding characterised by buffer length and LSB stream -/

/-- Derived characterisation of `decodeTextFromImage`: the result depends
only on the buffer length and on the stream of eligible LSBs.  This is a
proof device (`decode_eq_spec` relates it to the source model), not a
source translation. -/
def decodeSpec (len : Nat) (stream : List Nat) : Except StegoError (List Nat) :=
  if 3 * len / 4 < 32 then .error .bufferTooSmall
  else if 32 ≤ stream.length then
    if bitsToNat (stream.take 32) = 0 then .ok []
    else if 3 * len / 4 - 32 < bitsToNat (stream.take 32) then
      .error (.declaredLengthExceedsCapacity (bitsToNat (stream.take 32)) (3 * len / 4 - 32))
    else if bitsToNat (stream.take 32) ≤ stream.length - 32 then
      match binaryToUTF8Text ((stream.drop 32).take (bitsToNat (stream.take 32))) with
      | none => .error .invalidEncoding
      | some decodedText => .ok decodedText
    else .error .outOfDataMessage
  else .error .outOfDataLength

theorem decode_eq_spec (data : List Nat) :
    decodeTextFromImage data = decodeSpec data.length (lsbStream data 0) := by
  unfold decodeTextFromImage decodeSpec
  by_cases hcap : 3 * data.length / 4 < 32
  · rw [if_pos hcap, if_pos hcap]
  · rw [if_neg hcap, if_neg hcap]
    by_cases hlen : 32 ≤ (lsbStream data 0).length
    · rw [if_pos hlen]
      have hsome := readWalk_isSome data 0 32 hlen
      cases hr : readWalk data 0 32 with
      | none => rw [hr] at hsome; simp at hsome
      | some p =>
        rcases p with ⟨bits, r, j⟩
        obtain ⟨g1, g2, g3⟩ := readWalk_spec data 0 32 bits r j hr
        dsimp only
        rw [← g1]
        by_cases hm : bitsToNat bits = 0
        · rw [if_pos hm, if_pos hm]
        · rw [if_neg hm, if_neg hm]
          by_cases hd : 3 * data.length / 4 - 32 < bitsToNat bits
          · rw [if_pos hd, if_pos hd]
          · rw [if_neg hd, if_neg hd]
            by_cases hm2 : bitsToNat bits ≤ (lsbStream data 0).length - 32
            · rw [if_pos hm2]
              have hle : bitsToNat bits ≤ (lsbStream r j).length := by
                rw [g2, List.length_drop]
                exact hm2
              have hsome2 := readWalk_isSome r j (bitsToNat bits) hle
              cases hr2 : readWalk r j (bitsToNat bits) with
              | none => rw [hr2] at hsome2; simp at hsome2
              | some q =>
                rcases q with ⟨bits2, r2, j2⟩
                obtain ⟨k1, k2, k3⟩ := readWalk_spec r j (bitsToNat bits) bits2 r2 j2 hr2
                dsimp only
                rw [k1, g2]
            · rw [if_neg hm2]
              cases hr2 : readWalk r j (bitsToNat bits) with
              | none => rfl
              | some q =>
                rcases q with ⟨bits2, r2, j2⟩
                obtain ⟨k1, k2, k3⟩ := readWalk_spec r j (bitsToNat bits) bits2 r2 j2 hr2
                have hc : bitsToNat bits ≤ (lsbStream r j).length := by
                  rw [k1, List.length_take] at k3
                  omega
                rw [g2, List.length_drop] at hc
                exact absurd hc hm2
    · rw [if_neg hlen]
      cases hr : readWalk data 0 32 with
      | none => rfl
      | some p =>
        rcases p with ⟨bits, r, j⟩
        obtain ⟨g1, g2, g3⟩ := readWalk_spec data 0 32 bits r j hr
        have : 32 ≤ (lsbStream data 0).length := by
          rw [g1, List.length_take] at g3
          omega
        exact absurd this hlen

/-! ### UTF-8 round trip -/

theorem utf8EncodeChar_ne_nil (c : Nat) : utf8EncodeChar c ≠ [] := by
  unfold utf8EncodeChar
  split_ifs <;> simp

theorem utf8EncodeChar_lt_256 (c : Nat) (h : c < 0x110000) :
    ∀ b ∈ utf8EncodeChar c, b < 256 := by
  unfold utf8EncodeChar
  split_ifs with h1 h2 h3 <;> intro b hb <;>
    simp only [List.mem_cons, List.mem_singleton, List.not_mem_nil, or_false] at hb
  · omega
  · rcases hb with rfl | rfl <;> omega
  · rcases hb with rfl | rfl | rfl <;> omega
  · rcases hb with rfl | rfl | rfl | rfl <;> omega

theorem utf8DecodeStep_length (l : List Nat) (c : Nat) (r : List Nat)
    (h : utf8DecodeStep l = some (c, r)) : r.length < l.length := by
  cases l with
  | nil => simp [utf8DecodeStep] at h
  | cons b0 rest =>
    simp only [utf8DecodeStep] at h
    repeat' split at h
    all_goals
      first
        | exact Option.noConfusion h
        | (simp only [Option.some_inj, Prod.mk.injEq] at h
           rw [← h.2]
           simp only [List.length_cons]
           omega)

theorem utf8DecodeFuel_eq (fuel : Nat) :
    ∀ l : List Nat, l.length ≤ fuel → utf8DecodeFuel fuel l = utf8Decode l := by
  induction fuel using Nat.strong_induction_on with
  | _ fuel ih =>
    intro l hl
    cases l with
    | nil => cases fuel <;> rfl
    | cons b rest =>
      cases fuel with
      | zero => simp at hl
      | succ fuel =>
        rw [List.length_cons] at hl
        show (match utf8DecodeStep (b :: rest) with
          | none => none
          | some p => (utf8DecodeFuel fuel p.2).map (fun cs => p.1 :: cs)) = utf8Decode (b :: rest)
        have hrhs : utf8Decode (b :: rest)
            = (match utf8DecodeStep (b :: rest) with
              | none => none
              | some p => (utf8DecodeFuel rest.length p.2).map (fun cs => p.1 :: cs)) := by
          rw [utf8Decode, List.length_cons]
          rfl
        rw [hrhs]
        cases hstep : utf8DecodeStep (b :: rest) with
        | none => rfl
        | some p =>
          have hlt : p.2.length < rest.length + 1 :=
            utf8DecodeStep_length (b :: rest) p.1 p.2 (by rw [hstep])
          dsimp only
          rw [ih fuel (by omega) p.2 (by omega),
            ih rest.length (by omega) p.2 (by omega)]

theorem utf8Decode_cons_step (l : List Nat) (c : Nat) (r : List Nat)
    (h : utf8DecodeStep l = some (c, r)) :
    utf8Decode l = (utf8Decode r).map (fun cs => c :: cs) := by
  have hne : l ≠ [] := by
    intro he
    rw [he] at h
    simp [utf8DecodeStep] at h
  obtain ⟨b, rest, rfl⟩ := List.exists_cons_of_ne_nil hne
  have hlt : r.length < rest.length + 1 :=
    utf8DecodeStep_length (b :: rest) c r h
  rw [utf8Decode, List.length_cons]
  show (match utf8DecodeStep (b :: rest) with
    | none => none
    | some p => (utf8DecodeFuel rest.length p.2).map (fun cs => p.1 :: cs)) = _
  rw [h]
  dsimp only
  rw [utf8DecodeFuel_eq rest.length r (by omega)]

theorem utf8DecodeStep_encodeChar (c : Nat) (hv : ValidScalar c) (rest : List Nat) :
    utf8DecodeStep (utf8EncodeChar c ++ rest) = some (c, rest) := by
  unfold ValidScalar at hv
  unfold utf8EncodeChar
  by_cases h1 : c < 0x80
  · rw [if_pos h1]
    show utf8DecodeStep (c :: rest) = _
    simp only [utf8DecodeStep]
    rw [if_pos h1]
  · rw [if_neg h1]
    by_cases h2 : c < 0x800
    · rw [if_pos h2]
      show utf8DecodeStep ((0xC0 + c / 64) :: (0x80 + c % 64) :: rest) = _
      simp only [utf8DecodeStep]
      rw [if_neg (by omega), if_pos (by omega), if_pos (by omega)]
      have hval : (0xC0 + c / 64 - 0xC0) * 64 + (0x80 + c % 64 - 0x80) = c := by omega
      rw [hval]
    · rw [if_neg h2]
      by_cases h3 : c < 0x10000
      · rw [if_pos h3]
        show utf8DecodeStep
            ((0xE0 + c / 4096) :: (0x80 + c / 64 % 64) :: (0x80 + c % 64) :: rest) = _
        simp only [utf8DecodeStep]
        rw [if_neg (by omega), if_neg (by omega), if_pos (by omega)]
        have hcond : ((if 0xE0 + c / 4096 = 0xE0 then 0xA0 else 0x80) ≤ 0x80 + c / 64 % 64 ∧
            0x80 + c / 64 % 64 ≤ (if 0xE0 + c / 4096 = 0xED then 0x9F else 0xBF)) ∧
            0x80 ≤ 0x80 + c % 64 ∧ 0x80 + c % 64 < 0xC0 := by
          refine ⟨⟨?_, ?_⟩, by omega, by omega⟩
          · by_cases h0 : 0xE0 + c / 4096 = 0xE0
            · rw [if_pos h0]; omega
            · rw [if_neg h0]; omega
          · by_cases h0 : 0xE0 + c / 4096 = 0xED
            · rw [if_pos h0]; omega
            · rw [if_neg h0]; omega
        rw [if_pos hcond]
        have hval : (0xE0 + c / 4096 - 0xE0) * 4096 + (0x80 + c / 64 % 64 - 0x80) * 64 +
            (0x80 + c % 64 - 0x80) = c := by omega
        rw [hval]
      · rw [if_neg h3]
        show utf8DecodeStep ((0xF0 + c / 262144) :: (0x80 + c / 4096 % 64) ::
            (0x80 + c / 64 % 64) :: (0x80 + c % 64) :: rest) = _
        simp only [utf8DecodeStep]
        rw [if_neg (by omega), if_neg (by omega), if_neg (by omega), if_pos (by omega)]
        have hcond : ((if 0xF0 + c / 262144 = 0xF0 then 0x90 else 0x80) ≤ 0x80 + c / 4096 % 64 ∧
            0x80 + c / 4096 % 64 ≤ (if 0xF0 + c / 262144 = 0xF4 then 0x8F else 0xBF)) ∧
            (0x80 ≤ 0x80 + c / 64 % 64 ∧ 0x80 + c / 64 % 64 < 0xC0) ∧
            0x80 ≤ 0x80 + c % 64 ∧ 0x80 + c % 64 < 0xC0 := by
          refine ⟨⟨?_, ?_⟩, ⟨by omega, by omega⟩, by omega, by omega⟩
          · by_cases h0 : 0xF0 + c / 262144 = 0xF0
            · rw [if_pos h0]; omega
            · rw [if_neg h0]; omega
          · by_cases h0 : 0xF0 + c / 262144 = 0xF4
            · rw [if_pos h0]; omega
            · rw [if_neg h0]; omega
        rw [if_pos hcond]
        have hval : (0xF0 + c / 262144 - 0xF0) * 262144 + (0x80 + c / 4096 % 64 - 0x80) * 4096 +
            (0x80 + c / 64 % 64 - 0x80) * 64 + (0x80 + c % 64 - 0x80) = c := by omega
        rw [hval]

theorem utf8_roundtrip (t : List Nat) (h : ∀ c ∈ t, ValidScalar c) :
    utf8Decode (utf8Encode t) = some t := by
  induction t with
  | nil => rfl
  | cons c cs ih =>
    rw [utf8Encode,
      utf8Decode_cons_step (utf8EncodeChar c ++ utf8Encode cs) c (utf8Encode cs)
        (utf8DecodeStep_encodeChar c (h c (by simp)) (utf8Encode cs)),
      ih (fun x hx => h x (by simp [hx]))]
    rfl

/-! ### Encoding assembly -/

theorem binaryDigitsAux_eq_log (fuel : Nat) :
    ∀ n, 0 < n → n ≤ fuel → binaryDigitsAux fuel n = Nat.log 2 n + 1 := by
  induction fuel using Nat.strong_induction_on with
  | _ fuel ih =>
    intro n hn hnf
    cases n with
    | zero => omega
    | succ m =>
      cases fuel with
      | zero => omega
      | succ fuel =>
        rw [binaryDigitsAux]
        by_cases h1 : m = 0
        · subst h1
          have : (1 : Nat) / 2 = 0 := by norm_num
          rw [this]
          cases fuel <;> simp [binaryDigitsAux, Nat.log_one_right]
        · have h2 : 2 ≤ m + 1 := by omega
          have hdiv : 0 < (m + 1) / 2 := by omega
          have hfit : (m + 1) / 2 ≤ fuel := by omega
          rw [ih fuel (by omega) ((m + 1) / 2) hdiv hfit]
          have hlog := Nat.log_div_base 2 (m + 1)
          have hpos := Nat.log_pos (b := 2) (n := m + 1) (by norm_num) h2
          omega

theorem numberToBinary_eq (num : Nat) :
    numberToBinary num 32 = if num < 2 ^ 32 then some (natToBits 32 num) else none := by
  unfold numberToBinary binaryDigits
  by_cases h0 : num = 0
  · subst h0
    norm_num
  · rw [if_neg h0]
    rw [binaryDigitsAux_eq_log num num (by omega) (by omega)]
    have hiff : num < 2 ^ 32 ↔ Nat.log 2 num < 32 :=
      Nat.lt_pow_iff_log_lt (by norm_num) h0
    by_cases hlt : num < 2 ^ 32
    · rw [if_pos hlt, if_neg (by omega)]
    · rw [if_neg hlt, if_pos (by omega)]

theorem textToUTF8Binary_length (t : List Nat) :
    (textToUTF8Binary t).length = 8 * (utf8Encode t).length :=
  bytesToBits_length (utf8Encode t)

theorem textToUTF8Binary_lt_two (t : List Nat) : ∀ x ∈ textToUTF8Binary t, x < 2 :=
  bytesToBits_lt_two (utf8Encode t)

theorem utf8Encode_lt_256 (t : List Nat) (h : ∀ c ∈ t, ValidScalar c) :
    ∀ b ∈ utf8Encode t, b < 256 := by
  induction t with
  | nil => intro b hb; simp [utf8Encode] at hb
  | cons c cs ih =>
    intro b hb
    rw [utf8Encode] at hb
    rcases List.mem_append.mp hb with hmem | hmem
    · have hc : c < 0x110000 := by
        have := h c (by simp)
        unfold ValidScalar at this
        omega
      exact utf8EncodeChar_lt_256 c hc b hmem
    · exact ih (fun x hx => h x (by simp [hx])) b hmem

theorem utf8Encode_nil_iff (t : List Nat) : utf8Encode t = [] ↔ t = [] := by
  cases t with
  | nil => simp [utf8Encode]
  | cons c cs =>
    simp only [utf8Encode]
    constructor
    · intro hc
      have h1 : utf8EncodeChar c = [] := by
        cases he : utf8EncodeChar c with
        | nil => rfl
        | cons x xs => rw [he] at hc; simp at hc
      exact absurd h1 (utf8EncodeChar_ne_nil c)
    · intro hc
      exact absurd hc (by simp)

theorem binaryToUTF8Text_roundtrip (t : List Nat) (h : ∀ c ∈ t, ValidScalar c) :
    binaryToUTF8Text (textToUTF8Binary t) = some t := by
  unfold binaryToUTF8Text textToUTF8Binary
  rw [bitsToBytes_bytesToBits (utf8Encode t) (utf8Encode_lt_256 t h), utf8_roundtrip t h]

theorem roundtrip_aux (data t : List Nat) (hvalid : ∀ c ∈ t, ValidScalar c)
    (hbits : (textToUTF8Binary t).length < 2 ^ 32)
    (hcap : 32 + (textToUTF8Binary t).length ≤ 3 * data.length / 4) :
    ∃ buf2, encodeTextInImageSt data t = (none, buf2) ∧
      decodeTextFromImage buf2 = Except.ok t := by
  have hNB : numberToBinary (textToUTF8Binary t).length 32
      = some (natToBits 32 (textToUTF8Binary t).length) := by
    rw [numberToBinary_eq, if_pos hbits]
  have hplen : (natToBits 32 (textToUTF8Binary t).length ++ textToUTF8Binary t).length
      = 32 + (textToUTF8Binary t).length := by
    rw [List.length_append, natToBits_length]
  have hstream : (natToBits 32 (textToUTF8Binary t).length ++ textToUTF8Binary t).length
      ≤ (lsbStream data 0).length := by
    rw [hplen, lsbStream_length, eligCount_zero]
    have := capacity_le_elig data.length
    omega
  have hnone := embedWalk_isNone data 0 _ hstream
  rcases hwe : embedWalk data 0 (natToBits 32 (textToUTF8Binary t).length ++ textToUTF8Binary t)
    with ⟨e, buf2⟩
  rw [hwe] at hnone
  simp only at hnone
  subst hnone
  have henc : encodeTextInImageSt data t = (none, buf2) := by
    unfold encodeTextInImageSt
    rw [hNB]
    dsimp only
    rw [if_neg (by rw [hplen]; omega), hwe]
  refine ⟨buf2, henc, ?_⟩
  have hpbits : ∀ x ∈ natToBits 32 (textToUTF8Binary t).length ++ textToUTF8Binary t, x < 2 := by
    intro x hx
    rcases List.mem_append.mp hx with hm | hm
    · exact natToBits_lt_two 32 _ x hm
    · exact textToUTF8Binary_lt_two t x hm
  have hlen2 : buf2.length = data.length := embedWalk_length data 0 _ buf2 hwe
  have hstream2 := embedWalk_stream data 0 _ buf2 hpbits hwe
  rw [decode_eq_spec, hlen2, hstream2]
  unfold decodeSpec
  rw [if_neg (by omega : ¬ 3 * data.length / 4 < 32)]
  have hsl : 32 ≤ ((natToBits 32 (textToUTF8Binary t).length ++ textToUTF8Binary t) ++
      (lsbStream data 0).drop (natToBits 32 (textToUTF8Binary t).length ++
        textToUTF8Binary t).length).length := by
    rw [List.length_append, hplen]
    omega
  rw [if_pos hsl]
  have htake : ((natToBits 32 (textToUTF8Binary t).length ++ textToUTF8Binary t) ++
      (lsbStream data 0).drop (natToBits 32 (textToUTF8Binary t).length ++
        textToUTF8Binary t).length).take 32
      = natToBits 32 (textToUTF8Binary t).length := by
    rw [List.append_assoc]
    exact List.take_left' (natToBits_length 32 _)
  rw [htake, bitsToNat_natToBits, Nat.mod_eq_of_lt hbits]
  by_cases hL0 : (textToUTF8Binary t).length = 0
  · rw [if_pos hL0]
    have ht : t = [] := by
      rw [textToUTF8Binary_length] at hL0
      have : utf8Encode t = [] := List.eq_nil_of_length_eq_zero (by omega)
      exact (utf8Encode_nil_iff t).mp this
    rw [ht]
  · rw [if_neg hL0, if_neg (by omega), if_pos (by rw [List.length_append, hplen]; omega)]
    have hdrop : ((natToBits 32 (textToUTF8Binary t).length ++ textToUTF8Binary t) ++
        (lsbStream data 0).drop (natToBits 32 (textToUTF8Binary t).length ++
          textToUTF8Binary t).length).drop 32
        = textToUTF8Binary t ++ (lsbStream data 0).drop (natToBits 32
            (textToUTF8Binary t).length ++ textToUTF8Binary t).length := by
      rw [List.append_assoc]
      exact List.drop_left' (natToBits_length 32 _)
    rw [hdrop, List.take_left' rfl, binaryToUTF8Text_roundtrip t hvalid]

/-! ### Stream congruence: extraction never looks at alpha bytes -/

theorem lsbStream_congr (l1 : List Nat) :
    ∀ l2 i, l1.length = l2.length →
      (∀ j, j < l1.length → (i + j) % 4 ≠ 3 → l1.getD j 0 = l2.getD j 0) →
      lsbStream l1 i = lsbStream l2 i := by
  induction l1 with
  | nil =>
    intro l2 i hlen hagree
    have : l2 = [] := List.eq_nil_of_length_eq_zero (by simpa using hlen.symm)
    subst this
    rfl
  | cons b1 rest1 ih =>
    intro l2 i hlen hagree
    cases l2 with
    | nil => simp at hlen
    | cons b2 rest2 =>
      have hrest : lsbStream rest1 (i + 1) = lsbStream rest2 (i + 1) := by
        refine ih rest2 (i + 1) (by simpa using hlen) ?_
        intro j hj hmod
        have := hagree (j + 1) (by simpa using Nat.succ_lt_succ hj)
          (by rw [show i + (j + 1) = i + 1 + j by omega]; exact hmod)
        simpa using this
      by_cases hi : i % 4 = 3
      · rw [lsbStream, if_pos hi, lsbStream, if_pos hi, hrest]
      · have hb : b1 = b2 := by
          have := hagree 0 (by simp) (by simpa using hi)
          simpa using this
        rw [lsbStream, if_neg hi, lsbStream, if_neg hi, hrest, hb]

/-! ### Helper lemmas for the claim theorems -/

theorem getD_lt_two (l : List Nat) (h : ∀ x ∈ l, x < 2) (k : Nat) : l.getD k 0 < 2 := by
  by_cases hk : k < l.length
  · rw [List.getD_eq_getElem l 0 hk]
    exact h _ (List.getElem_mem hk)
  · rw [List.getD_eq_default l 0 (by omega)]
    omega

theorem encode_success (data t : List Nat)
    (hbits : (textToUTF8Binary t).length < 2 ^ 32)
    (hcap : 32 + (textToUTF8Binary t).length ≤ 3 * data.length / 4) :
    ∃ buf2, encodeTextInImageSt data t = (none, buf2) := by
  have hplen : (natToBits 32 (textToUTF8Binary t).length ++ textToUTF8Binary t).length
      = 32 + (textToUTF8Binary t).length := by
    rw [List.length_append, natToBits_length]
  have hstream : (natToBits 32 (textToUTF8Binary t).length ++ textToUTF8Binary t).length
      ≤ (lsbStream data 0).length := by
    rw [hplen, lsbStream_length, eligCount_zero]
    have := capacity_le_elig data.length
    omega
  have hnone := embedWalk_isNone data 0 _ hstream
  rcases hwe : embedWalk data 0 (natToBits 32 (textToUTF8Binary t).length ++ textToUTF8Binary t)
    with ⟨e, buf2⟩
  rw [hwe] at hnone
  simp only at hnone
  subst hnone
  refine ⟨buf2, ?_⟩
  unfold encodeTextInImageSt
  rw [numberToBinary_eq, if_pos hbits]
  dsimp only
  rw [if_neg (by rw [hplen]; omega), hwe]

theorem encode_success_walk (data t buf2 : List Nat)
    (h : encodeTextInImageSt data t = (none, buf2)) :
    embedWalk data 0 (natToBits 32 (textToUTF8Binary t).length ++ textToUTF8Binary t)
      = (none, buf2) := by
  unfold encodeTextInImageSt at h
  rw [numberToBinary_eq] at h
  by_cases hbits : (textToUTF8Binary t).length < 2 ^ 32
  · rw [if_pos hbits] at h
    dsimp only at h
    by_cases hfit : 3 * data.length / 4
        < (natToBits 32 (textToUTF8Binary t).length ++ textToUTF8Binary t).length
    · rw [if_pos hfit] at h
      simp at h
    · rwa [if_neg hfit] at h
  · rw [if_neg hbits] at h
    simp at h

theorem payload_bits_lt_two (t : List Nat) :
    ∀ x ∈ natToBits 32 (textToUTF8Binary t).length ++ textToUTF8Binary t, x < 2 := by
  intro x hx
  rcases List.mem_append.mp hx with hm | hm
  · exact natToBits_lt_two 32 _ x hm
  · exact textToUTF8Binary_lt_two t x hm

/-! ### Claim theorems -/

/-- C2: the source, exercised at a 9-bit input (length not a multiple of 8),
does NOT report any malformed-payload failure: it silently drops the
trailing bit and decodes the remaining full byte, returning the same text
as the 8-bit input — the silent truncation the claim (and the spec) says
must not happen.  This records the divergence between code and claim. -/
theorem c2_truncation :
    ([0, 1, 0, 0, 0, 0, 0, 1, 1] : List Nat).length % 8 ≠ 0 ∧
    binaryToUTF8Text [0, 1, 0, 0, 0, 0, 0, 1, 1] = some [65] ∧
    binaryToUTF8Text [0, 1, 0, 0, 0, 0, 0, 1] = some [65] := by
  decide

/-- C8: a pixel buffer (length a multiple of 4) with fewer than 32
eligible bits — capacity `(length / 4) * 3 < 32` — makes extraction fail
with `BufferTooSmall`, before any bit is read (the result is this error
for every buffer of such a length, whatever its bytes). -/
theorem c8_buffer_too_small (data : List Nat) (h4 : data.length % 4 = 0)
    (h : data.length / 4 * 3 < 32) :
    decodeTextFromImage data = Except.error StegoError.bufferTooSmall := by
  unfold decodeTextFromImage
  rw [if_pos (by omega)]

theorem c8_buffer_too_small_witness :
    (List.replicate 16 (255 : Nat)).length % 4 = 0 ∧
    (List.replicate 16 (255 : Nat)).length / 4 * 3 < 32 ∧
    decodeTextFromImage (List.replicate 16 255) = Except.error StegoError.bufferTooSmall :=
  ⟨by decide, by decide, c8_buffer_too_small (List.replicate 16 255) (by decide) (by decide)⟩

/-- C9: when the buffer length is a multiple of 4 and the payload passes
the capacity check, the embedding walk never reaches the
ran-out-of-buffer reject (`InternalInconsistency`). -/
theorem c9_internal_unreachable (data t : List Nat) (h4 : data.length % 4 = 0)
    (hcap : 32 + (textToUTF8Binary t).length ≤ data.length / 4 * 3) :
    (encodeTextInImageSt data t).1 ≠ some StegoError.internalInconsistency := by
  by_cases hbits : (textToUTF8Binary t).length < 2 ^ 32
  · obtain ⟨buf2, henc⟩ := encode_success data t hbits (by omega)
    rw [henc]
    simp
  · unfold encodeTextInImageSt
    rw [numberToBinary_eq, if_neg hbits]
    simp

theorem c9_internal_unreachable_witness :
    (List.replicate 56 (200 : Nat)).length % 4 = 0 ∧
    32 + (textToUTF8Binary [65]).length ≤ (List.replicate 56 (200 : Nat)).length / 4 * 3 ∧
    (encodeTextInImageSt (List.replicate 56 200) [65]).1 ≠ some StegoError.internalInconsistency :=
  ⟨by decide, by decide,
    c9_internal_unreachable (List.replicate 56 200) [65] (by decide) (by decide)⟩

/-- C4: alpha bytes (buffer index congruent to 3 mod 4) are never written
by a successful embed, and extraction never reads them: two buffers of the
same length that agree on every non-alpha byte decode identically. -/
theorem c4_alpha_untouched :
    (∀ data t buf2 : List Nat, encodeTextInImageSt data t = (none, buf2) →
        ∀ j, j < data.length → j % 4 = 3 → buf2.getD j 0 = data.getD j 0) ∧
    (∀ d1 d2 : List Nat, d1.length = d2.length →
        (∀ j, j < d1.length → j % 4 ≠ 3 → d1.getD j 0 = d2.getD j 0) →
        decodeTextFromImage d1 = decodeTextFromImage d2) := by
  constructor
  · intro data t buf2 h j hj hj4
    have hwalk := encode_success_walk data t buf2 h
    have := embedWalk_getD data 0 _ buf2 hwalk j hj
    rw [this, if_neg]
    intro hcon
    rw [Nat.zero_add] at hcon
    exact hcon.1 hj4
  · intro d1 d2 hlen hagree
    have hs : lsbStream d1 0 = lsbStream d2 0 := by
      refine lsbStream_congr d1 d2 0 hlen ?_
      intro j hj hmod
      exact hagree j hj (by simpa using hmod)
    rw [decode_eq_spec, decode_eq_spec, hlen, hs]

theorem c4_alpha_untouched_witness :
    encodeTextInImageSt (List.replicate 44 200) [] =
      (none, (encodeTextInImageSt (List.replicate 44 200) []).2) ∧
    (encodeTextInImageSt (List.replicate 44 200) []).2.getD 3 0 =
      (List.replicate 44 (200 : Nat)).getD 3 0 ∧
    decodeTextFromImage [200, 200, 200, 255] = decodeTextFromImage [200, 200, 200, 0] :=
  ⟨by decide,
    c4_alpha_untouched.1 (List.replicate 44 200) [] _ (by decide) 3 (by decide) (by decide),
    c4_alpha_untouched.2 [200, 200, 200, 255] [200, 200, 200, 0] (by decide)
      (by decide)⟩

/-- C5: a successful embed only ever replaces the least-significant bit of
a byte: every output byte is `(original AND 0xFE) OR b` for some bit `b`,
and the top seven bits (the value divided by 2) are unchanged. -/
theorem c5_lsb_only (data t buf2 : List Nat) (hbytes : ∀ x ∈ data, x < 256)
    (h : encodeTextInImageSt data t = (none, buf2)) :
    ∀ j, j < data.length →
      (∃ b, b < 2 ∧ buf2.getD j 0 = ((data.getD j 0) &&& 0xFE) ||| b) ∧
      buf2.getD j 0 / 2 = data.getD j 0 / 2 := by
  intro j hj
  have hwalk := encode_success_walk data t buf2 h
  have hpos := embedWalk_getD data 0 _ buf2 hwalk j hj
  have hdj : data.getD j 0 < 256 := by
    rw [List.getD_eq_getElem data 0 hj]
    exact hbytes _ (List.getElem_mem hj)
  by_cases hc : (0 + j) % 4 ≠ 3 ∧ eligCount 0 j <
      (natToBits 32 (textToUTF8Binary t).length ++ textToUTF8Binary t).length
  · rw [hpos, if_pos hc]
    have hbit : (natToBits 32 (textToUTF8Binary t).length ++
        textToUTF8Binary t).getD (eligCount 0 j) 0 < 2 :=
      getD_lt_two _ (payload_bits_lt_two t) _
    constructor
    · exact ⟨_, hbit, rfl⟩
    · rw [byte_write_eq (data.getD j 0) hdj _ hbit]
      omega
  · rw [hpos, if_neg hc]
    constructor
    · refine ⟨(data.getD j 0) &&& 1, ?_, ?_⟩
      · rw [Nat.and_one_is_mod]
        omega
      · rw [byte_self_write (data.getD j 0) hdj]
    · rfl

theorem c5_lsb_only_witness :
    (∀ x ∈ List.replicate 44 (200 : Nat), x < 256) ∧
    ∀ j, j < (List.replicate 44 (200 : Nat)).length →
      (∃ b, b < 2 ∧ (encodeTextInImageSt (List.replicate 44 200) []).2.getD j 0 =
        (((List.replicate 44 (200 : Nat)).getD j 0) &&& 0xFE) ||| b) ∧
      (encodeTextInImageSt (List.replicate 44 200) []).2.getD j 0 / 2 =
        (List.replicate 44 (200 : Nat)).getD j 0 / 2 :=
  ⟨by decide,
    c5_lsb_only (List.replicate 44 200) [] (encodeTextInImageSt (List.replicate 44 200) []).2
      (by decide) (by decide)⟩

/-- C6: a zero length prefix (first 32 eligible LSBs all 0) makes
extraction succeed with the empty string; embedding the empty string into
any buffer with capacity at least 32 round-trips to the empty string; and
the empty-string success is distinct from every failure value. -/
theorem c6_empty_message (data : List Nat) (hcap : 32 ≤ 3 * data.length / 4) :
    ((lsbStream data 0).take 32 = List.replicate 32 0 →
      decodeTextFromImage data = Except.ok []) ∧
    (∃ buf2, encodeTextInImageSt data [] = (none, buf2) ∧
      decodeTextFromImage buf2 = Except.ok []) ∧
    (∀ e : StegoError, (Except.ok ([] : List Nat) : Except StegoError (List Nat))
      ≠ Except.error e) := by
  refine ⟨?_, ?_, by intro e; simp⟩
  · intro hzero
    rw [decode_eq_spec]
    unfold decodeSpec
    rw [if_neg (by omega), if_pos ?hsl]
    case hsl =>
      rw [lsbStream_length, eligCount_zero]
      have := capacity_le_elig data.length
      omega
    rw [hzero, bitsToNat_replicate_zero]
    simp
  · refine roundtrip_aux data [] (by simp) ?_ ?_
    · show (textToUTF8Binary []).length < 2 ^ 32
      decide
    · show 32 + (textToUTF8Binary []).length ≤ 3 * data.length / 4
      have : (textToUTF8Binary []).length = 0 := by decide
      omega

theorem c6_empty_message_witness :
    32 ≤ 3 * (List.replicate 44 (200 : Nat)).length / 4 ∧
    (lsbStream (List.replicate 44 200) 0).take 32 = List.replicate 32 0 ∧
    decodeTextFromImage (List.replicate 44 200) = Except.ok [] ∧
    (∃ buf2, encodeTextInImageSt (List.replicate 44 200) [] = (none, buf2) ∧
      decodeTextFromImage buf2 = Except.ok []) :=
  ⟨by decide, by decide,
    (c6_empty_message (List.replicate 44 200) (by decide)).1 (by decide),
    (c6_empty_message (List.replicate 44 200) (by decide)).2.1⟩

/-- C7: a nonzero declared length exceeding `capacity - 32` makes
extraction fail with `DeclaredLengthExceedsCapacity`, and the outcome
depends only on the buffer length and the first 32 eligible LSBs — no
message bit is read. -/
theorem c7_declared_length (data : List Nat) (h4 : data.length % 4 = 0)
    (hcap : 32 ≤ data.length / 4 * 3)
    (hm0 : bitsToNat ((lsbStream data 0).take 32) ≠ 0)
    (hbig : data.length / 4 * 3 - 32 < bitsToNat ((lsbStream data 0).take 32)) :
    decodeTextFromImage data = Except.error
      (StegoError.declaredLengthExceedsCapacity (bitsToNat ((lsbStream data 0).take 32))
        (3 * data.length / 4 - 32)) ∧
    (∀ d2 : List Nat, d2.length = data.length →
      (lsbStream d2 0).take 32 = (lsbStream data 0).take 32 →
      decodeTextFromImage d2 = decodeTextFromImage data) := by
  have herr : ∀ d2 : List Nat, d2.length = data.length →
      (lsbStream d2 0).take 32 = (lsbStream data 0).take 32 →
      decodeTextFromImage d2 = Except.error
        (StegoError.declaredLengthExceedsCapacity (bitsToNat ((lsbStream data 0).take 32))
          (3 * data.length / 4 - 32)) := by
    intro d2 hlen htake
    rw [decode_eq_spec]
    unfold decodeSpec
    rw [hlen, htake, if_neg (by omega), if_pos ?hsl, if_neg hm0, if_pos (by omega)]
    case hsl =>
      rw [lsbStream_length, eligCount_zero, hlen]
      have := capacity_le_elig data.length
      omega
  have hself := herr data rfl rfl
  refine ⟨hself, ?_⟩
  intro d2 hlen htake
  rw [hself, herr d2 hlen htake]

theorem c7_declared_length_witness :
    (List.replicate 44 (255 : Nat)).length % 4 = 0 ∧
    32 ≤ (List.replicate 44 (255 : Nat)).length / 4 * 3 ∧
    bitsToNat ((lsbStream (List.replicate 44 255) 0).take 32) ≠ 0 ∧
    (List.replicate 44 (255 : Nat)).length / 4 * 3 - 32 <
      bitsToNat ((lsbStream (List.replicate 44 255) 0).take 32) ∧
    decodeTextFromImage (List.replicate 44 255) = Except.error
      (StegoError.declaredLengthExceedsCapacity
        (bitsToNat ((lsbStream (List.replicate 44 255) 0).take 32))
        (3 * (List.replicate 44 (255 : Nat)).length / 4 - 32)) :=
  ⟨by decide, by decide, by decide, by decide,
    (c7_declared_length (List.replicate 44 255) (by decide) (by decide) (by decide)
      (by decide)).1⟩

/-- C10: on a successful embed with payload of `n = 32 + bitlength` bits,
the `k`-th payload bit lands in buffer index `4 * (k / 3) + k % 3` (only
its LSB replaced), and every byte past the last written index
`4 * ((n - 1) / 3) + (n - 1) % 3` is untouched. -/
theorem c10_bit_positions (data t buf2 : List Nat)
    (h : encodeTextInImageSt data t = (none, buf2)) :
    (∀ k, k < 32 + (textToUTF8Binary t).length →
      buf2.getD (4 * (k / 3) + k % 3) 0 =
        ((data.getD (4 * (k / 3) + k % 3) 0) &&& 0xFE) |||
          (natToBits 32 (textToUTF8Binary t).length ++ textToUTF8Binary t).getD k 0) ∧
    (∀ j, 4 * ((32 + (textToUTF8Binary t).length - 1) / 3) +
        (32 + (textToUTF8Binary t).length - 1) % 3 < j → j < data.length →
      buf2.getD j 0 = data.getD j 0) := by
  have hwalk := encode_success_walk data t buf2 h
  have hplen : (natToBits 32 (textToUTF8Binary t).length ++ textToUTF8Binary t).length
      = 32 + (textToUTF8Binary t).length := by
    rw [List.length_append, natToBits_length]
  have hbound := embedWalk_payload_le data 0 _ buf2 hwalk
  rw [lsbStream_length, eligCount_zero, hplen] at hbound
  constructor
  · intro k hk
    have hjlen : 4 * (k / 3) + k % 3 < data.length := by omega
    have hpos := embedWalk_getD data 0 _ buf2 hwalk (4 * (k / 3) + k % 3) hjlen
    have he : eligCount 0 (4 * (k / 3) + k % 3) = k := by
      rw [eligCount_zero]
      omega
    rw [hpos, if_pos ⟨by omega, by rw [he, hplen]; omega⟩, he]
  · intro j hgt hlt
    have hpos := embedWalk_getD data 0 _ buf2 hwalk j hlt
    rw [hpos, if_neg]
    rw [eligCount_zero, hplen]
    omega

theorem c10_bit_positions_witness :
    encodeTextInImageSt (List.replicate 64 200) [104, 105] =
      (none, (encodeTextInImageSt (List.replicate 64 200) [104, 105]).2) ∧
    ((∀ k, k < 32 + (textToUTF8Binary [104, 105]).length →
      (encodeTextInImageSt (List.replicate 64 200) [104, 105]).2.getD
          (4 * (k / 3) + k % 3) 0 =
        (((List.replicate 64 (200 : Nat)).getD (4 * (k / 3) + k % 3) 0) &&& 0xFE) |||
          (natToBits 32 (textToUTF8Binary [104, 105]).length ++
            textToUTF8Binary [104, 105]).getD k 0) ∧
    (∀ j, 4 * ((32 + (textToUTF8Binary [104, 105]).length - 1) / 3) +
        (32 + (textToUTF8Binary [104, 105]).length - 1) % 3 < j →
        j < (List.replicate 64 (200 : Nat)).length →
      (encodeTextInImageSt (List.replicate 64 200) [104, 105]).2.getD j 0 =
        (List.replicate 64 (200 : Nat)).getD j 0)) :=
  ⟨by decide,
    c10_bit_positions (List.replicate 64 200) [104, 105]
      (encodeTextInImageSt (List.replicate 64 200) [104, 105]).2 (by decide)⟩

theorem utf8Encode_replicate_ascii (c : Nat) (hc : c < 0x80) :
    ∀ n, utf8Encode (List.replicate n c) = List.replicate n c := by
  intro n
  induction n with
  | zero => rfl
  | succ n ih =>
    rw [List.replicate_succ, utf8Encode, ih, utf8EncodeChar, if_pos hc]
    rfl

/-- C1 (amended): the round trip holds for every message whose UTF-8
bit-length is representable in the 32-bit prefix (below 2 ^ 32 — which
any message fitting a real canvas buffer satisfies): embedding into a
4-aligned buffer with capacity `(length / 4) * 3` at least
`32 + bitlength` succeeds and extraction returns exactly the message. -/
theorem c1_roundtrip (data t : List Nat) (h4 : data.length % 4 = 0)
    (hvalid : ∀ c ∈ t, ValidScalar c)
    (hbits : (textToUTF8Binary t).length < 2 ^ 32)
    (hcap : 32 + (textToUTF8Binary t).length ≤ data.length / 4 * 3) :
    ∃ buf2, encodeTextInImageSt data t = (none, buf2) ∧
      decodeTextFromImage buf2 = Except.ok t :=
  roundtrip_aux data t hvalid hbits (by omega)

theorem c1_roundtrip_witness :
    (List.replicate 64 (200 : Nat)).length % 4 = 0 ∧
    (∀ c ∈ ([104, 105] : List Nat), ValidScalar c) ∧
    (textToUTF8Binary [104, 105]).length < 2 ^ 32 ∧
    32 + (textToUTF8Binary [104, 105]).length ≤ (List.replicate 64 (200 : Nat)).length / 4 * 3 ∧
    ∃ buf2, encodeTextInImageSt (List.replicate 64 200) [104, 105] = (none, buf2) ∧
      decodeTextFromImage buf2 = Except.ok [104, 105] :=
  ⟨by decide, by decide, by decide, by decide,
    c1_roundtrip (List.replicate 64 200) [104, 105] (by decide) (by decide) (by decide)
      (by decide)⟩

/-- C3 (amended): for messages whose UTF-8 bit-length is representable in
the 32-bit prefix (below 2 ^ 32), embed fails with `CapacityExceeded`
exactly when `32 + bitlength` exceeds the capacity `(length / 4) * 3`,
the buffer is returned untouched on that failure, and a payload that
fits (even exactly) embeds successfully. -/
theorem c3_capacity (data t : List Nat) (h4 : data.length % 4 = 0)
    (hbits : (textToUTF8Binary t).length < 2 ^ 32) :
    (data.length / 4 * 3 < 32 + (textToUTF8Binary t).length →
      encodeTextInImageSt data t = (some (StegoError.capacityExceeded
        (32 + (textToUTF8Binary t).length) (3 * data.length / 4)), data)) ∧
    (32 + (textToUTF8Binary t).length ≤ data.length / 4 * 3 →
      ∃ buf2, encodeTextInImageSt data t = (none, buf2)) := by
  have hplen : (natToBits 32 (textToUTF8Binary t).length ++ textToUTF8Binary t).length
      = 32 + (textToUTF8Binary t).length := by
    rw [List.length_append, natToBits_length]
  constructor
  · intro hover
    unfold encodeTextInImageSt
    rw [numberToBinary_eq, if_pos hbits]
    dsimp only
    rw [if_pos (by rw [hplen]; omega), hplen]
  · intro hcap
    exact encode_success data t hbits (by omega)

theorem c3_capacity_witness :
    (List.replicate 44 (255 : Nat)).length % 4 = 0 ∧
    (textToUTF8Binary [65]).length < 2 ^ 32 ∧
    ((List.replicate 44 (255 : Nat)).length / 4 * 3 < 32 + (textToUTF8Binary [65]).length →
      encodeTextInImageSt (List.replicate 44 255) [65]
        = (some (StegoError.capacityExceeded (32 + (textToUTF8Binary [65]).length)
            (3 * (List.replicate 44 (255 : Nat)).length / 4)), List.replicate 44 255)) ∧
    (32 + (textToUTF8Binary [65]).length ≤ (List.replicate 44 (255 : Nat)).length / 4 * 3 →
      ∃ buf2, encodeTextInImageSt (List.replicate 44 255) [65] = (none, buf2)) :=
  ⟨by decide, by decide,
    (c3_capacity (List.replicate 44 255) [65] (by decide) (by decide)).1,
    (c3_capacity (List.replicate 44 255) [65] (by decide) (by decide)).2⟩

theorem encode_overflow (data t : List Nat)
    (hbits : ¬ (textToUTF8Binary t).length < 2 ^ 32) :
    encodeTextInImageSt data t = (some StegoError.overflow, data) := by
  unfold encodeTextInImageSt
  rw [numberToBinary_eq, if_neg hbits]

theorem bigText_length :
    (textToUTF8Binary (List.replicate 536870912 97)).length = 4294967296 := by
  rw [textToUTF8Binary_length, utf8Encode_replicate_ascii 97 (by norm_num) 536870912,
    List.length_replicate]

/-- C1 counterexample: a message of exactly 2 ^ 32 bits into a buffer
whose capacity covers it.  The claim instance demands a successful
round trip, but `numberToBinary` cannot represent the bit-length in the
32-bit prefix and the embed fails with the overflow rejection, so no
mutated buffer exists at all. -/
theorem c1_roundtrip_counterexample :
    (List.replicate 5726623104 (0 : Nat)).length % 4 = 0 ∧
    (∀ c ∈ List.replicate 536870912 (97 : Nat), ValidScalar c) ∧
    32 + (textToUTF8Binary (List.replicate 536870912 97)).length ≤
      (List.replicate 5726623104 (0 : Nat)).length / 4 * 3 ∧
    ¬ ∃ buf2, encodeTextInImageSt (List.replicate 5726623104 0) (List.replicate 536870912 97)
        = (none, buf2) ∧
      decodeTextFromImage buf2 = Except.ok (List.replicate 536870912 97) := by
  have henc : encodeTextInImageSt (List.replicate 5726623104 0) (List.replicate 536870912 97)
      = (some StegoError.overflow, List.replicate 5726623104 0) :=
    encode_overflow _ _ (by rw [bigText_length]; norm_num)
  refine ⟨by rw [List.length_replicate], ?_, ?_, ?_⟩
  · intro c hc
    rw [List.eq_of_mem_replicate hc]
    left
    norm_num
  · rw [bigText_length, List.length_replicate]
  · rintro ⟨buf2, heq, hdec⟩
    rw [henc] at heq
    exact Option.noConfusion (congrArg Prod.fst heq)

/-- C3 counterexample: with a message of 2 ^ 32 bits the payload exceeds
the capacity of the empty buffer, yet the embed failure is the overflow
rejection from `numberToBinary` (thrown before the capacity check), not
`CapacityExceeded` as the claim requires for every oversized payload. -/
theorem c3_capacity_counterexample :
    ([] : List Nat).length % 4 = 0 ∧
    ([] : List Nat).length / 4 * 3 <
      32 + (textToUTF8Binary (List.replicate 536870912 97)).length ∧
    encodeTextInImageSt [] (List.replicate 536870912 97) = (some StegoError.overflow, []) ∧
    ∀ required available buf2,
      encodeTextInImageSt [] (List.replicate 536870912 97)
        ≠ (some (StegoError.capacityExceeded required available), buf2) := by
  have henc : encodeTextInImageSt [] (List.replicate 536870912 97)
      = (some StegoError.overflow, []) :=
    encode_overflow _ _ (by rw [bigText_length]; norm_num)
  refine ⟨rfl, by rw [bigText_length]; norm_num, henc, ?_⟩
  intro required available buf2 heq
  rw [henc] at heq
  simp at heq

end Stego
